import Mathlib

/-!
Verification of the dns-mesh-controller core: fingerprint computation
(`ComputeSelectorHash`, `ComputeSpecHash`), the bidirectional `PolicyIndex`
(`Upsert`/`Delete`/`Get`/`Size`), the reconciliation state machine
(`Reconcile`, `updateCondition`) and the HTTP read facade
(`handleGetPolicy`).  Go maps are modelled as association lists with
replace-on-insert semantics; `DeepCopy` is the identity under value
semantics; the external object store is threaded explicitly as
`Option DnsPolicy`; the outcomes of the two fallible persistence calls
(`Update`, `Status().Update`) are injected as booleans.
-/

namespace DnsMesh

/-- Association-list lookup: first entry whose key matches.  Models Go map
read `m[k]`. -/
def alookup {α β : Type} [DecidableEq α] (k : α) : List (α × β) → Option β
  | [] => none
  | (k', v) :: rest => if k' = k then some v else alookup k rest

/-- Association-list erase: removes every entry with the given key.  Models
Go `delete(m, k)` (on no-duplicate-key lists it removes the single entry). -/
def aerase {α β : Type} [DecidableEq α] (k : α) : List (α × β) → List (α × β)
  | [] => []
  | p :: rest => if p.1 = k then aerase k rest else p :: aerase k rest

/-- Association-list insert-or-replace: models Go map write `m[k] = v`. -/
def ainsert {α β : Type} [DecidableEq α] (k : α) (v : β) (l : List (α × β)) : List (α × β) :=
  (k, v) :: aerase k l

/-- Keys of an association list. -/
def akeys {α β : Type} (l : List (α × β)) : List α := l.map Prod.fst

section AssocLemmas

variable {α β : Type} [DecidableEq α]

theorem alookup_ainsert_self (k : α) (v : β) (l : List (α × β)) :
    alookup k (ainsert k v l) = some v := by
  simp [ainsert, alookup]

theorem alookup_aerase (k k' : α) (l : List (α × β)) (h : k' ≠ k) :
    alookup k' (aerase k l) = alookup k' l := by
  induction l with
  | nil => rfl
  | cons p rest ih =>
    cases p with
    | mk a b =>
      by_cases hp : a = k
      · have hak : a ≠ k' := fun h' => h (h' ▸ hp)
        simp only [aerase, if_pos hp, alookup, if_neg hak]
        exact ih
      · simp only [aerase, if_neg hp, alookup]
        by_cases hak : a = k'
        · simp [if_pos hak]
        · simp only [if_neg hak]
          exact ih

theorem alookup_aerase_self (k : α) (l : List (α × β)) :
    alookup k (aerase k l) = none := by
  induction l with
  | nil => rfl
  | cons p rest ih =>
    cases p with
    | mk a b =>
      by_cases hp : a = k
      · simpa [aerase, if_pos hp] using ih
      · simp only [aerase, if_neg hp, alookup, if_neg hp]
        exact ih

theorem alookup_ainsert_of_ne (k k' : α) (v : β) (l : List (α × β)) (h : k' ≠ k) :
    alookup k' (ainsert k v l) = alookup k' l := by
  simp only [ainsert, alookup]
  rw [if_neg (fun h' => h h'.symm), alookup_aerase _ _ _ h]

theorem mem_of_alookup_eq_some {k : α} {v : β} {l : List (α × β)}
    (h : alookup k l = some v) : (k, v) ∈ l := by
  induction l with
  | nil => simp [alookup] at h
  | cons p rest ih =>
    cases p with
    | mk a b =>
      by_cases ha : a = k
      · simp only [alookup, if_pos ha] at h
        subst ha
        cases h
        exact List.mem_cons_self _ _
      · simp only [alookup, if_neg ha] at h
        exact List.mem_cons_of_mem _ (ih h)

theorem alookup_eq_none_of_not_mem_akeys {k : α} {l : List (α × β)}
    (h : k ∉ akeys l) : alookup k l = none := by
  induction l with
  | nil => rfl
  | cons p rest ih =>
    simp only [akeys, List.map_cons, List.mem_cons] at h
    push_neg at h
    simp only [alookup]
    cases p with
    | mk a b =>
      rw [if_neg (fun h' => h.1 h'.symm)]
      exact ih h.2

theorem mem_akeys_of_alookup_eq_some {k : α} {v : β} {l : List (α × β)}
    (h : alookup k l = some v) : k ∈ akeys l := by
  have := mem_of_alookup_eq_some h
  exact List.mem_map_of_mem Prod.fst this

theorem alookup_eq_some_of_mem {k : α} {v : β} {l : List (α × β)}
    (hnd : (akeys l).Nodup) (h : (k, v) ∈ l) : alookup k l = some v := by
  induction l with
  | nil => simp at h
  | cons p rest ih =>
    cases p with
    | mk a b =>
      simp only [akeys, List.map_cons, List.nodup_cons] at hnd
      rcases List.mem_cons.mp h with heq | hmem
      · cases heq
        simp [alookup]
      · have hk : a ≠ k := by
          intro hak
          subst hak
          exact hnd.1 (List.mem_map_of_mem Prod.fst hmem)
        simp only [alookup, if_neg hk]
        exact ih hnd.2 hmem

theorem aerase_eq_self_of_not_mem {k : α} {l : List (α × β)}
    (h : k ∉ akeys l) : aerase k l = l := by
  induction l with
  | nil => rfl
  | cons p rest ih =>
    simp only [akeys, List.map_cons, List.mem_cons] at h
    push_neg at h
    simp only [aerase]
    rw [if_neg (fun h' => h.1 h'.symm), ih h.2]

theorem mem_aerase {k : α} {q : α × β} {l : List (α × β)} :
    q ∈ aerase k l ↔ q ∈ l ∧ q.1 ≠ k := by
  induction l with
  | nil => simp [aerase]
  | cons p rest ih =>
    by_cases hp : p.1 = k
    · simp only [aerase, if_pos hp, ih, List.mem_cons]
      constructor
      · rintro ⟨hm, hne⟩
        exact ⟨Or.inr hm, hne⟩
      · rintro ⟨hm | hm, hne⟩
        · exact absurd (hm ▸ hp) hne
        · exact ⟨hm, hne⟩
    · simp only [aerase, if_neg hp, List.mem_cons, ih]
      constructor
      · rintro (heq | ⟨hm, hne⟩)
        · exact ⟨Or.inl heq, heq ▸ hp⟩
        · exact ⟨Or.inr hm, hne⟩
      · rintro ⟨hm | hm, hne⟩
        · exact Or.inl hm
        · exact Or.inr ⟨hm, hne⟩

theorem mem_akeys_aerase {a k : α} {l : List (α × β)} :
    a ∈ akeys (aerase k l) ↔ a ∈ akeys l ∧ a ≠ k := by
  simp only [akeys, List.mem_map]
  constructor
  · rintro ⟨q, hq, rfl⟩
    have := mem_aerase.mp hq
    exact ⟨⟨q, this.1, rfl⟩, this.2⟩
  · rintro ⟨⟨q, hq, rfl⟩, hne⟩
    exact ⟨q, mem_aerase.mpr ⟨hq, hne⟩, rfl⟩

theorem nodup_akeys_aerase (k : α) {l : List (α × β)} (h : (akeys l).Nodup) :
    (akeys (aerase k l)).Nodup := by
  induction l with
  | nil => exact h
  | cons p rest ih =>
    simp only [akeys, List.map_cons, List.nodup_cons] at h
    by_cases hp : p.1 = k
    · simpa only [aerase, if_pos hp] using ih h.2
    · simp only [aerase, if_neg hp, akeys, List.map_cons, List.nodup_cons]
      refine ⟨fun hmem => ?_, ih h.2⟩
      exact h.1 (mem_akeys_aerase.mp hmem).1

theorem not_mem_akeys_aerase_self (k : α) (l : List (α × β)) :
    k ∉ akeys (aerase k l) := by
  intro hmem
  exact (mem_akeys_aerase.mp hmem).2 rfl

theorem nodup_akeys_ainsert (k : α) (v : β) {l : List (α × β)}
    (h : (akeys l).Nodup) : (akeys (ainsert k v l)).Nodup := by
  simp only [ainsert, akeys, List.map_cons]
  exact List.nodup_cons.mpr ⟨not_mem_akeys_aerase_self k l, nodup_akeys_aerase k h⟩

theorem mem_ainsert {k : α} {v : β} {q : α × β} {l : List (α × β)} :
    q ∈ ainsert k v l ↔ q = (k, v) ∨ (q ∈ l ∧ q.1 ≠ k) := by
  simp [ainsert, mem_aerase]

end AssocLemmas

/-- Lexicographic comparison of character lists by code point; on UTF-8
text this coincides with Go's byte-wise string order. -/
def charListLe : List Char → List Char → Bool
  | [], _ => true
  | _ :: _, [] => false
  | c :: cs, d :: ds => if c = d then charListLe cs ds else Nat.blt c.toNat d.toNat

/-- Lexicographic string order used for all sorting. -/
def strLe (a b : String) : Bool := charListLe a.data b.data

/-- Ascending lexicographic sort of strings; models Go sort.Strings. -/
def sortStrings (l : List String) : List String :=
  List.insertionSort (fun a b => strLe a b = true) l

theorem char_toNat_inj {c d : Char} (h : c.toNat = d.toNat) : c = d :=
  Char.ext (UInt32.ext h)

theorem charListLe_total : ∀ a b, charListLe a b = true ∨ charListLe b a = true := by
  intro a
  induction a with
  | nil => intro b; exact Or.inl rfl
  | cons c cs ih =>
    intro b
    cases b with
    | nil => exact Or.inr rfl
    | cons d ds =>
      by_cases hcd : c = d
      · subst hcd
        simpa [charListLe] using ih ds
      · have hne : c.toNat ≠ d.toNat := fun h => hcd (char_toNat_inj h)
        simp only [charListLe, if_neg hcd, if_neg (Ne.symm hcd)]
        rcases Nat.lt_or_ge c.toNat d.toNat with hlt | hge
        · exact Or.inl (by simpa [Nat.blt_eq] using hlt)
        · have hdc : d.toNat < c.toNat := lt_of_le_of_ne hge (Ne.symm hne)
          exact Or.inr (by simpa [Nat.blt_eq] using hdc)

theorem charListLe_trans : ∀ a b c, charListLe a b = true → charListLe b c = true →
    charListLe a c = true := by
  intro a
  induction a with
  | nil => intro b c _ _; rfl
  | cons x xs ih =>
    intro b c hab hbc
    cases b with
    | nil => simp [charListLe] at hab
    | cons y ys =>
      cases c with
      | nil => simp [charListLe] at hbc
      | cons z zs =>
        by_cases hxy : x = y
        · subst hxy
          simp only [charListLe, if_pos rfl] at hab
          by_cases hyz : x = z
          · subst hyz
            simp only [charListLe, if_pos rfl] at hbc ⊢
            exact ih ys zs hab hbc
          · simpa only [charListLe, if_neg hyz] using hbc
        · simp only [charListLe, if_neg hxy, Nat.blt_eq] at hab
          by_cases hyz : y = z
          · subst hyz
            simpa only [charListLe, if_neg hxy, Nat.blt_eq] using hab
          · simp only [charListLe, if_neg hyz, Nat.blt_eq] at hbc
            have hlt : x.toNat < z.toNat := Nat.lt_trans hab hbc
            have hxz : x ≠ z := by
              intro h
              subst h
              exact Nat.lt_irrefl _ hlt
            simpa only [charListLe, if_neg hxz, Nat.blt_eq] using hlt

theorem charListLe_antisymm : ∀ a b, charListLe a b = true → charListLe b a = true →
    a = b := by
  intro a
  induction a with
  | nil =>
    intro b hab hba
    cases b with
    | nil => rfl
    | cons d ds => simp [charListLe] at hba
  | cons c cs ih =>
    intro b hab hba
    cases b with
    | nil => simp [charListLe] at hab
    | cons d ds =>
      by_cases hcd : c = d
      · subst hcd
        simp only [charListLe, if_pos rfl] at hab hba
        rw [ih ds hab hba]
      · simp only [charListLe, if_neg hcd, if_neg (Ne.symm hcd), Nat.blt_eq] at hab hba
        exact absurd hba (Nat.lt_asymm hab)

instance strLeIsTotal : IsTotal String (fun a b => strLe a b = true) :=
  ⟨fun a b => charListLe_total a.data b.data⟩

instance strLeIsTrans : IsTrans String (fun a b => strLe a b = true) :=
  ⟨fun a b c => charListLe_trans a.data b.data c.data⟩

instance strLeIsAntisymm : IsAntisymm String (fun a b => strLe a b = true) := by
  constructor
  intro a b h1 h2
  cases a with
  | mk da =>
    cases b with
    | mk db =>
      rw [charListLe_antisymm da db h1 h2]

/-- Lowercase hexadecimal digit for a value taken mod 16. -/
def hexDigit (n : Nat) : Char := "0123456789abcdef".data.getD (n % 16) '0'

/-- Lowercase hexadecimal encoding of a byte list, two digits per byte;
models Go hex.EncodeToString (the bytes are < 256, so b / 16 % 16 is the
high nibble b >> 4). -/
def hexEncode (bs : List Nat) : String :=
  String.mk (bs.foldr (fun b acc => hexDigit (b / 16) :: hexDigit b :: acc) [])

/-- UTF-8 bytes of one character. -/
def utf8Char (c : Char) : List Nat :=
  let n := c.toNat
  if n < 128 then [n]
  else if n < 2048 then [192 + n / 64, 128 + n % 64]
  else if n < 65536 then [224 + n / 4096, 128 + n / 64 % 64, 128 + n % 64]
  else [240 + n / 262144, 128 + n / 4096 % 64, 128 + n / 64 % 64, 128 + n % 64]

/-- UTF-8 bytes of a string. -/
def utf8Bytes (s : String) : List Nat := (s.data.map utf8Char).flatten

/-- Escape of one character inside a Go encoding/json string literal (the
default encoder HTML-escapes angle brackets and ampersand, and escapes
quote, backslash, control characters and U+2028/U+2029). -/
def escChar (c : Char) : List Char :=
  if c = '"' then ['\\', '"']
  else if c = '\\' then ['\\', '\\']
  else if c = '\n' then ['\\', 'n']
  else if c = '\r' then ['\\', 'r']
  else if c = '\t' then ['\\', 't']
  else if c.toNat < 32 then ['\\', 'u', '0', '0', hexDigit (c.toNat / 16), hexDigit c.toNat]
  else if c = '<' then ['\\', 'u', '0', '0', '3', 'c']
  else if c = '>' then ['\\', 'u', '0', '0', '3', 'e']
  else if c = '&' then ['\\', 'u', '0', '0', '2', '6']
  else if c.toNat = 8232 then ['\\', 'u', '2', '0', '2', '8']
  else if c.toNat = 8233 then ['\\', 'u', '2', '0', '2', '9']
  else [c]

/-- JSON string literal text for a string. -/
def jsonStr (s : String) : String :=
  String.mk ('"' :: (s.data.map escChar).flatten ++ ['"'])

/-- Joins pre-rendered JSON items with commas. -/
def joinComma : List String → String
  | [] => ""
  | [x] => x
  | x :: rest => x ++ "," ++ joinComma rest

/-- Word modulus of SHA-256 arithmetic. -/
def two32 : Nat := 4294967296

/-- Addition modulo two to the 32nd. -/
def add32 (a b : Nat) : Nat := (a + b) % two32

/-- Right rotation of a 32-bit word. -/
def rotr32 (n x : Nat) : Nat := ((x >>> n) ||| (x <<< (32 - n))) % two32

/-- SHA-256 choice function. -/
def shaCh (e f g : Nat) : Nat := (e &&& f) ^^^ ((e ^^^ 4294967295) &&& g)

/-- SHA-256 majority function. -/
def shaMaj (a b c : Nat) : Nat := (a &&& b) ^^^ (a &&& c) ^^^ (b &&& c)

/-- SHA-256 big Sigma-0. -/
def bigSigma0 (x : Nat) : Nat := rotr32 2 x ^^^ rotr32 13 x ^^^ rotr32 22 x

/-- SHA-256 big Sigma-1. -/
def bigSigma1 (x : Nat) : Nat := rotr32 6 x ^^^ rotr32 11 x ^^^ rotr32 25 x

/-- SHA-256 small sigma-0. -/
def smallSigma0 (x : Nat) : Nat := rotr32 7 x ^^^ rotr32 18 x ^^^ (x >>> 3)

/-- SHA-256 small sigma-1. -/
def smallSigma1 (x : Nat) : Nat := rotr32 17 x ^^^ rotr32 19 x ^^^ (x >>> 10)

/-- SHA-256 round constants. -/
def shaK : List Nat :=
  [1116352408, 1899447441, 3049323471, 3921009573, 961987163, 1508970993,
   2453635748, 2870763221, 3624381080, 310598401, 607225278, 1426881987,
   1925078388, 2162078206, 2614888103, 3248222580, 3835390401, 4022224774,
   264347078, 604807628, 770255983, 1249150122, 1555081692, 1996064986,
   2554220882, 2821834349, 2952996808, 3210313671, 3336571891, 3584528711,
   113926993, 338241895, 666307205, 773529912, 1294757372, 1396182291,
   1695183700, 1986661051, 2177026350, 2456956037, 2730485921, 2820302411,
   3259730800, 3345764771, 3516065817, 3600352804, 4094571909, 275423344,
   430227734, 506948616, 659060556, 883997877, 958139571, 1322822218,
   1537002063, 1747873779, 1955562222, 2024104815, 2227730452, 2361852424,
   2428436474, 2756734187, 3204031479, 3329325298]

/-- SHA-256 initial hash state. -/
def shaH0 : List Nat :=
  [1779033703, 3144134277, 1013904242, 2773480762,
   1359893119, 2600822924, 528734635, 1541459225]

/-- SHA-256 message padding. -/
def shaPad (msg : List Nat) : List Nat :=
  msg ++ 128 :: List.replicate ((64 + 55 - msg.length % 64) % 64) 0 ++
    (List.range 8).map (fun i => ((8 * msg.length) >>> (56 - 8 * i)) % 256)

/-- Splits a byte list into 64-byte blocks; the fuel argument (instantiated
with the list length, which bounds the number of blocks) keeps the
recursion structural. -/
def chunks64Fuel : Nat → List Nat → List (List Nat)
  | 0, _ => []
  | _ + 1, [] => []
  | fuel + 1, b :: rest => (b :: rest).take 64 :: chunks64Fuel fuel ((b :: rest).drop 64)

/-- Splits the padded message into 64-byte blocks. -/
def chunks64 (l : List Nat) : List (List Nat) := chunks64Fuel l.length l

/-- First sixteen 32-bit big-endian words of a 64-byte block. -/
def blockWords (block : List Nat) : List Nat :=
  (List.range 16).map (fun i =>
    block.getD (4 * i) 0 * 16777216 + block.getD (4 * i + 1) 0 * 65536 +
      block.getD (4 * i + 2) 0 * 256 + block.getD (4 * i + 3) 0)

/-- Message-schedule extension from 16 to 64 words. -/
def shaSchedule (ws : List Nat) : List Nat :=
  (List.range 48).foldl
    (fun acc _ =>
      acc ++ [add32 (add32 (smallSigma1 (acc.getD (acc.length - 2) 0)) (acc.getD (acc.length - 7) 0))
        (add32 (smallSigma0 (acc.getD (acc.length - 15) 0)) (acc.getD (acc.length - 16) 0))])
    ws

/-- One round of the SHA-256 compression function; the state is the list
of the eight working variables a..h. -/
def shaRound (st : List Nat) (kw : Nat × Nat) : List Nat :=
  let a := st.getD 0 0
  let b := st.getD 1 0
  let c := st.getD 2 0
  let d := st.getD 3 0
  let e := st.getD 4 0
  let f := st.getD 5 0
  let g := st.getD 6 0
  let t1 := add32 (st.getD 7 0) (add32 (bigSigma1 e) (add32 (shaCh e f g) (add32 kw.1 kw.2)))
  let t2 := add32 (bigSigma0 a) (shaMaj a b c)
  [add32 t1 t2, a, b, c, add32 d t1, e, f, g]

/-- Compression of one 64-byte block into the running hash state. -/
def shaCompress (H : List Nat) (block : List Nat) : List Nat :=
  List.zipWith add32 H ((shaK.zip (shaSchedule (blockWords block))).foldl shaRound H)

/-- Big-endian bytes of one 32-bit word. -/
def wordBytes (w : Nat) : List Nat :=
  [(w >>> 24) % 256, (w >>> 16) % 256, (w >>> 8) % 256, w % 256]

/-- SHA-256 digest (32 bytes) of a byte list; models crypto/sha256.Sum256. -/
def sha256 (msg : List Nat) : List Nat :=
  (((chunks64 (shaPad msg)).foldl shaCompress shaH0).map wordBytes).flatten

/-- Policy body, the v1alpha1 DnsPolicySpec.  The schema file declares
TargetSelector, BlockList, Subject and DryRun; ComputeSpecHash additionally
reads an AllowList field retained from an earlier schema revision, so the
embedding carries all five fields.  Go string maps are association lists. -/
structure DnsPolicySpec where
  TargetSelector : List (String × String)
  AllowList : List String
  BlockList : List String
  Subject : List (String × String)
  DryRun : Bool
deriving DecidableEq

/-- Distinct keys of a label mapping, sorted lexicographically. -/
def canonicalKeys (m : List (String × String)) : List String :=
  sortStrings (akeys m).dedup

/-- Key-sorted pairs of a label mapping: the sorted map the source builds
before marshalling (Go json.Marshal likewise emits map keys in sorted
order). -/
def canonicalPairs (m : List (String × String)) : List (String × String) :=
  (canonicalKeys m).map (fun k => (k, (alookup k m).getD ""))

/-- JSON object text for a key-sorted pair list. -/
def mapJson (pairs : List (String × String)) : String :=
  "\x7b" ++ joinComma (pairs.map (fun p => jsonStr p.1 ++ ":" ++ jsonStr p.2)) ++ "\x7d"

/-- JSON array text for a string list. -/
def listJson (l : List String) : String :=
  "[" ++ joinComma (l.map jsonStr) ++ "]"

/-- ComputeSelectorHash from hash.go: an empty mapping yields the empty
string, otherwise the lowercase-hex SHA-256 of the canonical key-sorted
JSON encoding of the mapping.  json.Marshal of a string map cannot fail,
so the Go error result is always nil and is dropped in the embedding. -/
def ComputeSelectorHash (selector : List (String × String)) : String :=
  if selector.length = 0 then ""
  else hexEncode (sha256 (utf8Bytes (mapJson (canonicalPairs selector))))

/-- Canonical JSON encoding of the normalized record that ComputeSpecHash
marshals: the anonymous struct with fields TargetSelector, AllowList and
BlockList in declaration order.  Subject and DryRun are not part of the
record. -/
def specHashInput (spec : DnsPolicySpec) : String :=
  "\x7b\"TargetSelector\":" ++ mapJson (canonicalPairs spec.TargetSelector) ++
    ",\"AllowList\":" ++ listJson (sortStrings spec.AllowList) ++
    ",\"BlockList\":" ++ listJson (sortStrings spec.BlockList) ++ "\x7d"

/-- ComputeSpecHash from hash.go.  The Go function sorts the spec's
AllowList and BlockList slices in place through the shared backing array,
so the embedding returns both the hash and the caller's spec as it is left
after the call; TargetSelector is copied into a fresh map before sorting
and stays intact. -/
def ComputeSpecHash (spec : DnsPolicySpec) : String × DnsPolicySpec :=
  (hexEncode (sha256 (utf8Bytes (specHashInput spec))),
    { spec with AllowList := sortStrings spec.AllowList,
                BlockList := sortStrings spec.BlockList })

/-- Condition record (metav1.Condition): type, status ("True", "False" or
"Unknown"), observed generation, transition time, reason and message. -/
structure Condition where
  Type' : String
  Status : String
  ObservedGeneration : Int
  LastTransitionTime : Nat
  Reason : String
  Message : String
deriving DecidableEq

/-- Status subresource of a DnsPolicy (part_000). -/
structure DnsPolicyStatus where
  SelectorHash : String
  SpecHash : String
  ObservedGeneration : Int
  Conditions : List Condition
deriving DecidableEq

/-- Object identity (namespace, name), the k8s types.NamespacedName. -/
structure NamespacedName where
  Namespace : String
  Name : String
deriving DecidableEq

/-- DnsPolicy object: the ObjectMeta fields the controller reads
(Namespace, Name, Generation, DeletionTimestamp as a set/unset flag,
Finalizers) together with Spec and Status. -/
structure DnsPolicy where
  Namespace : String
  Name : String
  Generation : Int
  DeletionTimestamp : Bool
  Finalizers : List String
  Spec : DnsPolicySpec
  Status : DnsPolicyStatus
deriving DecidableEq

/-- Identity of a policy object. -/
def nnOf (policy : DnsPolicy) : NamespacedName := ⟨policy.Namespace, policy.Name⟩

/-- PolicyIndex from hash.go: forward map fingerprint-to-policy and reverse
map identity-to-fingerprint.  The reader/writer lock only serializes
access and has no sequential semantics, so it is dropped. -/
structure PolicyIndex where
  hashToPolicy : List (String × DnsPolicy)
  nameToHash : List (NamespacedName × String)
deriving DecidableEq

/-- NewPolicyIndex: the empty index. -/
def NewPolicyIndex : PolicyIndex := ⟨[], []⟩

/-- Upsert from hash.go: when the identity is indexed under a different
fingerprint the old forward entry is removed first; then both maps are
written.  Stored snapshots are DeepCopies, the identity under value
semantics. -/
def PolicyIndex.Upsert (idx : PolicyIndex) (policy : DnsPolicy) (selectorHash : String) :
    PolicyIndex :=
  let namespacedName := nnOf policy
  let f :=
    match alookup namespacedName idx.nameToHash with
    | some oldHash =>
      if oldHash ≠ selectorHash then aerase oldHash idx.hashToPolicy else idx.hashToPolicy
    | none => idx.hashToPolicy
  { hashToPolicy := ainsert selectorHash policy f,
    nameToHash := ainsert namespacedName selectorHash idx.nameToHash }

/-- Delete from hash.go: looks up the identity's fingerprint and removes
the entry from both maps; no-op when the identity is unknown. -/
def PolicyIndex.Delete (idx : PolicyIndex) (namespacedName : NamespacedName) : PolicyIndex :=
  match alookup namespacedName idx.nameToHash with
  | some hash => ⟨aerase hash idx.hashToPolicy, aerase namespacedName idx.nameToHash⟩
  | none => idx

/-- Get from hash.go: forward lookup returning a DeepCopy. -/
def PolicyIndex.Get (idx : PolicyIndex) (selectorHash : String) : Option DnsPolicy :=
  alookup selectorHash idx.hashToPolicy

/-- GetAll from hash.go: snapshot copies of all forward entries. -/
def PolicyIndex.GetAll (idx : PolicyIndex) : List DnsPolicy := idx.hashToPolicy.map Prod.snd

/-- Size from hash.go: number of forward entries. -/
def PolicyIndex.Size (idx : PolicyIndex) : Nat := idx.hashToPolicy.length

/-- updateCondition from part_001 acting on the conditions list: finds the
first condition of the given type and replaces it only when its status
differs (the code comments "Only update if status changed", so reason and
message of a same-status condition are left untouched); appends a new
condition when none of the type exists. -/
def updateConditionList (conditionType status reason message : String) (gen : Int)
    (now : Nat) : List Condition → List Condition
  | [] => [⟨conditionType, status, gen, now, reason, message⟩]
  | existing :: rest =>
    if existing.Type' = conditionType then
      (if existing.Status ≠ status then
        ⟨conditionType, status, gen, now, reason, message⟩ :: rest
      else existing :: rest)
    else existing :: updateConditionList conditionType status reason message gen now rest

/-- Finalizer string registered by the controller. -/
def dnsPolicyFinalizer : String := "dns.dnspolicies.io/finalizer"

/-- Observable actions of one reconcile invocation, in execution order:
index mutations, object updates and status updates (each with its injected
success flag), recorded events (type, reason), and condition writes on
the in-memory object (updateCondition calls). -/
inductive ROp where
  | indexDelete
  | indexUpsert (selectorHash : String)
  | storeUpdate (ok : Bool)
  | statusUpdate (ok : Bool)
  | event (etype reason : String)
  | condSet (ctype status reason : String)
deriving DecidableEq

/-- Result of one reconcile invocation: the returned error (none on
success), the index afterwards, the external store's record for the
identity afterwards, and the trace of performed actions. -/
structure ReconcileResult where
  err : Option String
  Index : PolicyIndex
  store : Option DnsPolicy
  trace : List ROp
deriving DecidableEq

/-- Tail of Reconcile (part_001 lines 178-194): commit to the index, then
the conditional status persistence.  `stored` is the object as the store
holds it, `policy2` the in-memory object with refreshed status hashes and
the spec as mutated by ComputeSpecHash. -/
def reconcileCommit (stored policy2 : DnsPolicy) (idx : PolicyIndex)
    (selectorHash : String) (needsStatusUpdate : Bool) (evs : List ROp)
    (statusUpdateOk : Bool) (now : Nat) : ReconcileResult :=
  let idx1 := idx.Upsert policy2 selectorHash
  if needsStatusUpdate then
    let policy3 := { policy2 with Status := { policy2.Status with
      Conditions := updateConditionList "Ready" "True" "Reconciled"
        "DnsPolicy successfully reconciled" policy2.Generation now
        policy2.Status.Conditions } }
    if statusUpdateOk then
      ⟨none, idx1, some { stored with Status := policy3.Status },
        evs ++ [ROp.indexUpsert selectorHash, ROp.event "Normal" "PolicyIndexed",
          ROp.condSet "Ready" "True" "Reconciled", ROp.statusUpdate true,
          ROp.event "Normal" "Reconciled"]⟩
    else
      ⟨some "status update failed", idx1, some stored,
        evs ++ [ROp.indexUpsert selectorHash, ROp.event "Normal" "PolicyIndexed",
          ROp.condSet "Ready" "True" "Reconciled", ROp.statusUpdate false,
          ROp.event "Warning" "StatusUpdateFailed"]⟩
  else
    ⟨none, idx1, some stored,
      evs ++ [ROp.indexUpsert selectorHash, ROp.event "Normal" "PolicyIndexed"]⟩

/-- Validation, selector hashing, duplicate-hash check, spec hashing and
commit for a live policy that already carries the finalizer (part_001
lines 106-194).  ComputeSelectorHash and ComputeSpecHash cannot fail on
map/slice input, so their error branches are dead code and not modelled. -/
def reconcileActive (policy0 : DnsPolicy) (idx : PolicyIndex)
    (statusUpdateOk : Bool) (now : Nat) : ReconcileResult :=
  if policy0.Spec.TargetSelector = [] ∧ policy0.Spec.Subject = [] then
    ⟨some "TargetSelector or Subject cannot be empty", idx, some policy0,
      [ROp.event "Warning" "InvalidSpec", ROp.condSet "Ready" "False" "InvalidSpec"]⟩
  else
    let hashObject := if policy0.Spec.TargetSelector = [] then policy0.Spec.Subject
      else policy0.Spec.TargetSelector
    let selectorHash := ComputeSelectorHash hashObject
    let dup : Bool :=
      match idx.Get selectorHash with
      | some existing => existing.Name != "" && existing.Name != policy0.Name
      | none => false
    if dup then
      ⟨some "DUPLICATE HASH ERROR", idx, some policy0,
        [ROp.event "Warning" "DuplicatHash", ROp.condSet "Ready" "False" "HashComputationFailed"]⟩
    else
      let hashPair := ComputeSpecHash policy0.Spec
      let policy1 := { policy0 with Spec := hashPair.2 }
      let ns1 : Bool := policy1.Status.SelectorHash != selectorHash
      let ns2 : Bool := policy1.Status.SpecHash != hashPair.1
      let ns3 : Bool := policy1.Status.ObservedGeneration != policy1.Generation
      let policy2 := { policy1 with Status := { policy1.Status with
        SelectorHash := selectorHash, SpecHash := hashPair.1,
        ObservedGeneration := policy1.Generation } }
      let evs := (if ns1 then [ROp.event "Normal" "SelectorHashUpdated"] else []) ++
        (if ns2 then [ROp.event "Normal" "SpecHashUpdated"] else [])
      reconcileCommit policy0 policy2 idx selectorHash (ns1 || ns2 || ns3) evs
        statusUpdateOk now

/-- Reconcile from part_001: fetch, deletion handling under the finalizer,
finalizer addition, then the active path.  The external store's record for
the request identity is `store` (`none` models NotFound); `updateOk` is
the outcome of the at-most-one `r.Update` call, `statusUpdateOk` of the
at-most-one `r.Status().Update` call; `now` stands for metav1.Now(). -/
def Reconcile (req : NamespacedName) (store : Option DnsPolicy) (idx : PolicyIndex)
    (updateOk statusUpdateOk : Bool) (now : Nat) : ReconcileResult :=
  match store with
  | none => ⟨none, idx.Delete req, none, [ROp.indexDelete]⟩
  | some policy0 =>
    if policy0.DeletionTimestamp then
      if dnsPolicyFinalizer ∈ policy0.Finalizers then
        let idx1 := idx.Delete req
        let policy1 := { policy0 with
          Finalizers := policy0.Finalizers.filter (fun f => f ≠ dnsPolicyFinalizer) }
        if updateOk then
          ⟨none, idx1, some policy1,
            [ROp.indexDelete, ROp.event "Normal" "Deleted", ROp.storeUpdate true]⟩
        else
          ⟨some "failed to remove finalizer", idx1, some policy0,
            [ROp.indexDelete, ROp.event "Normal" "Deleted", ROp.storeUpdate false,
             ROp.event "Warning" "FinalizerRemovalFailed"]⟩
      else ⟨none, idx, some policy0, []⟩
    else if dnsPolicyFinalizer ∈ policy0.Finalizers then
      reconcileActive policy0 idx statusUpdateOk now
    else
      let policy1 := { policy0 with Finalizers := policy0.Finalizers ++ [dnsPolicyFinalizer] }
      if updateOk then
        ⟨none, idx, some policy1,
          [ROp.storeUpdate true, ROp.event "Normal" "FinalizerAdded"]⟩
      else
        ⟨some "failed to add finalizer", idx, some policy0,
          [ROp.storeUpdate false, ROp.event "Warning" "FinalizerAddFailed"]⟩

/-- Decimal digits of a natural number (fuel keeps recursion structural). -/
def natDecFuel : Nat → Nat → List Char
  | 0, _ => []
  | _ + 1, n => if n < 10 then [hexDigit n] else natDecFuel n (n / 10) ++ [hexDigit (n % 10)]

/-- Decimal text of a natural number. -/
def natDec (n : Nat) : String := String.mk (natDecFuel (n + 1) n)

/-- Decimal text of an integer. -/
def intDec (i : Int) : String :=
  if i < 0 then "-" ++ natDec (-i).toNat else natDec i.toNat

/-- JSON text of a boolean. -/
def boolJson (b : Bool) : String := if b then "true" else "false"

/-- JSON text of one condition record. -/
def encodeCondition (c : Condition) : String :=
  "\x7b\"type\":" ++ jsonStr c.Type' ++ ",\"status\":" ++ jsonStr c.Status ++
    ",\"observedGeneration\":" ++ intDec c.ObservedGeneration ++
    ",\"lastTransitionTime\":" ++ natDec c.LastTransitionTime ++
    ",\"reason\":" ++ jsonStr c.Reason ++ ",\"message\":" ++ jsonStr c.Message ++ "\x7d"

/-- Modelled JSON wire encoding of a policy object, the body the API
server writes with json.NewEncoder: metadata identity, spec and status
(TypeMeta and the remaining ObjectMeta fields are elided). -/
def encodeDnsPolicy (p : DnsPolicy) : String :=
  "\x7b\"metadata\":\x7b\"namespace\":" ++ jsonStr p.Namespace ++
    ",\"name\":" ++ jsonStr p.Name ++ "\x7d,\"spec\":\x7b\"targetSelector\":" ++
    mapJson (canonicalPairs p.Spec.TargetSelector) ++ ",\"blockList\":" ++
    listJson p.Spec.BlockList ++ ",\"subject\":" ++
    mapJson (canonicalPairs p.Spec.Subject) ++ ",\"dryrun\":" ++
    boolJson p.Spec.DryRun ++ "\x7d,\"status\":\x7b\"selectorHash\":" ++
    jsonStr p.Status.SelectorHash ++ ",\"specHash\":" ++ jsonStr p.Status.SpecHash ++
    ",\"observedGeneration\":" ++ intDec p.Status.ObservedGeneration ++
    ",\"conditions\":[" ++ joinComma (p.Status.Conditions.map encodeCondition) ++
    "]\x7d\x7d"

/-- handleGetPolicy from api_server.go as a function from the request to
the written status code and body.  `hashParam` is the result of
r.URL.Query().Get("hash"), which is empty both when the parameter is
missing and when it is present but empty; http.Error appends a newline,
and so does json.Encoder.Encode. -/
def handleGetPolicy (idx : PolicyIndex) (method : String) (hashParam : String) :
    Nat × String :=
  if method ≠ "GET" then (405, "Method not allowed\x0A")
  else if hashParam = "" then (400, "Missing \x27hash\x27 query parameter\x0A")
  else
    match idx.Get hashParam with
    | none => (404, "No policy found for hash: " ++ hashParam ++ "\x0A")
    | some policy => (200, encodeDnsPolicy policy ++ "\x0A")

/-- Direct operations on the policy index, for reasoning about arbitrary
Upsert/Delete sequences. -/
inductive IndexOp where
  | upsert (policy : DnsPolicy) (selectorHash : String)
  | del (name : NamespacedName)

/-- Applies one index operation. -/
def applyOp (idx : PolicyIndex) : IndexOp → PolicyIndex
  | IndexOp.upsert p h => idx.Upsert p h
  | IndexOp.del n => idx.Delete n

/-- Applies a sequence of index operations from left to right. -/
def applyOps (idx : PolicyIndex) (ops : List IndexOp) : PolicyIndex :=
  ops.foldl applyOp idx

/-- A sequence of index operations is admissible when every Upsert runs at
a moment where its fingerprint is not held by a different identity in the
reverse map — the discipline the reconciler's duplicate-hash check is
meant to enforce before it calls Upsert. -/
def admissible : PolicyIndex → List IndexOp → Bool
  | _, [] => true
  | idx, op :: rest =>
    (match op with
     | IndexOp.upsert p h => idx.nameToHash.all (fun q => q.2 != h || q.1 == nnOf p)
     | IndexOp.del _ => true) && admissible (applyOp idx op) rest

/-- Mutual consistency of the two maps plus the size equation, phrased
executably: every forward fingerprint has exactly one reverse entry,
every reverse entry's fingerprint is a forward key, and Size equals the
number of distinct identities currently holding a fingerprint mapping. -/
def consistentB (idx : PolicyIndex) : Bool :=
  (akeys idx.hashToPolicy).all
      (fun h => (idx.nameToHash.filter (fun q => q.2 == h)).length == 1) &&
    idx.nameToHash.all (fun q => (akeys idx.hashToPolicy).contains q.2) &&
    (idx.Size == (akeys idx.nameToHash).dedup.length)

theorem alookup_isSome_of_mem_akeys {α β : Type} [DecidableEq α] {k : α}
    {l : List (α × β)} (h : k ∈ akeys l) : ∃ v, alookup k l = some v := by
  induction l with
  | nil => simp [akeys] at h
  | cons p rest ih =>
    cases p with
    | mk a b =>
      by_cases ha : a = k
      · exact ⟨b, by simp [alookup, if_pos ha]⟩
      · simp only [akeys, List.map_cons, List.mem_cons] at h
        rcases h with h | h
        · exact absurd h.symm ha
        · simpa only [alookup, if_neg ha] using ih h

theorem not_mem_akeys_of_alookup_eq_none {α β : Type} [DecidableEq α] {k : α}
    {l : List (α × β)} (h : alookup k l = none) : k ∉ akeys l := by
  intro hk
  rcases alookup_isSome_of_mem_akeys hk with ⟨v, hv⟩
  rw [h] at hv
  cases hv

theorem alookup_perm {α β : Type} [DecidableEq α] {m1 m2 : List (α × β)}
    (nd : (akeys m1).Nodup) (hp : m1.Perm m2) (k : α) :
    alookup k m1 = alookup k m2 := by
  have hkeys : (akeys m1).Perm (akeys m2) := hp.map Prod.fst
  have nd2 : (akeys m2).Nodup := hkeys.nodup nd
  cases hc : alookup k m1 with
  | some v =>
    exact (alookup_eq_some_of_mem nd2 (hp.subset (mem_of_alookup_eq_some hc))).symm
  | none =>
    have h1 : k ∉ akeys m1 := not_mem_akeys_of_alookup_eq_none hc
    have h2 : k ∉ akeys m2 := fun hk => h1 (hkeys.mem_iff.mpr hk)
    exact (alookup_eq_none_of_not_mem_akeys h2).symm

theorem sortStrings_eq_of_perm {l1 l2 : List String} (hp : l1.Perm l2) :
    sortStrings l1 = sortStrings l2 := by
  unfold sortStrings
  refine List.eq_of_perm_of_sorted ?_ (List.sorted_insertionSort _ l1)
    (List.sorted_insertionSort _ l2)
  exact ((List.perm_insertionSort _ l1).trans hp).trans
    (List.perm_insertionSort _ l2).symm

theorem canonicalKeys_eq_of_perm {m1 m2 : List (String × String)}
    (nd : (akeys m1).Nodup) (hp : m1.Perm m2) :
    canonicalKeys m1 = canonicalKeys m2 := by
  have hkeys : (akeys m1).Perm (akeys m2) := hp.map Prod.fst
  have nd2 : (akeys m2).Nodup := hkeys.nodup nd
  unfold canonicalKeys
  rw [List.dedup_eq_self.mpr nd, List.dedup_eq_self.mpr nd2]
  exact sortStrings_eq_of_perm hkeys

theorem canonicalPairs_eq_of_perm {m1 m2 : List (String × String)}
    (nd : (akeys m1).Nodup) (hp : m1.Perm m2) :
    canonicalPairs m1 = canonicalPairs m2 := by
  unfold canonicalPairs
  rw [canonicalKeys_eq_of_perm nd hp]
  have hfun : (fun k => (k, (alookup k m1).getD "")) =
      (fun k => (k, (alookup k m2).getD "")) := by
    funext k
    rw [alookup_perm nd hp k]
  rw [hfun]

theorem hexDigit_mem (n : Nat) : hexDigit n ∈ "0123456789abcdef".data := by
  have h : n % 16 < 16 := Nat.mod_lt _ (by omega)
  unfold hexDigit
  generalize n % 16 = k at h ⊢
  interval_cases k <;> decide

theorem hexEncode_chars (bs : List Nat) :
    ∀ c ∈ (hexEncode bs).data, c ∈ "0123456789abcdef".data := by
  have key : ∀ bs : List Nat,
      ∀ c ∈ bs.foldr (fun b acc => hexDigit (b / 16) :: hexDigit b :: acc) [],
        c ∈ "0123456789abcdef".data := by
    intro bs
    induction bs with
    | nil => intro c hc; simp at hc
    | cons b rest ih =>
      intro c hc
      simp only [List.foldr_cons, List.mem_cons] at hc
      rcases hc with rfl | rfl | hc
      · exact hexDigit_mem _
      · exact hexDigit_mem _
      · exact ih c hc
  exact key bs

/-- C6: for every non-empty label mapping, ComputeSelectorHash is the
lowercase hexadecimal SHA-256 digest of the canonical key-sorted JSON
encoding of the mapping; it is invariant under permutation of the pairs
(any two mappings with the same key-value pairs hash identically); and the
empty mapping yields the empty string rather than an error. -/
theorem c6_selector_hash :
    (∀ m : List (String × String), m ≠ [] →
      ComputeSelectorHash m = hexEncode (sha256 (utf8Bytes (mapJson (canonicalPairs m)))) ∧
      ∀ c ∈ (ComputeSelectorHash m).data, c ∈ "0123456789abcdef".data) ∧
    (∀ m1 m2 : List (String × String), (akeys m1).Nodup → m1.Perm m2 →
      ComputeSelectorHash m1 = ComputeSelectorHash m2) ∧
    ComputeSelectorHash [] = "" := by
  refine ⟨?_, ?_, rfl⟩
  · intro m hm
    have hlen : ¬ m.length = 0 := fun h => hm (List.length_eq_zero.mp h)
    constructor
    · unfold ComputeSelectorHash
      rw [if_neg hlen]
    · intro c hc
      unfold ComputeSelectorHash at hc
      rw [if_neg hlen] at hc
      exact hexEncode_chars _ c hc
  · intro m1 m2 nd hp
    unfold ComputeSelectorHash
    rw [hp.length_eq, canonicalPairs_eq_of_perm nd hp]

/-- Witness for C6 at concrete inputs: two permuted two-entry mappings
hash identically, and the empty mapping hashes to the empty string. -/
theorem c6_selector_hash_witness :
    ComputeSelectorHash [("a", "1"), ("b", "2")] =
      ComputeSelectorHash [("b", "2"), ("a", "1")] ∧
    ComputeSelectorHash [] = "" :=
  ⟨c6_selector_hash.2.1 _ _ (by decide) (by decide), c6_selector_hash.2.2⟩

/-- C10: two policy bodies identical except for the dry-run flag get the
same SpecHash — the normalized record ComputeSpecHash encodes does not
contain DryRun, so toggling it alone never changes the fingerprint. -/
theorem c10_dryrun_invariant (spec : DnsPolicySpec) (b1 b2 : Bool) :
    (ComputeSpecHash { spec with DryRun := b1 }).1 =
      (ComputeSpecHash { spec with DryRun := b2 }).1 := rfl

/-- C3 (code defect): two policy bodies identical except for their
non-empty subject mapping — the selection key, since the label selector is
empty — feed the byte-identical encoding to the hash and receive equal
SpecHashes: the normalized record ComputeSpecHash marshals does not
contain the subject form of the selection key at all. -/
theorem c3_subject_not_hashed :
    (let s1 : DnsPolicySpec := ⟨[], [], ["x.com"], [("user", "alice")], false⟩
     let s2 : DnsPolicySpec := ⟨[], [], ["x.com"], [("user", "bob")], false⟩
     s1.TargetSelector = [] ∧ s1.Subject ≠ [] ∧ s1.Subject ≠ s2.Subject ∧
       specHashInput s1 = specHashInput s2 ∧
       (ComputeSpecHash s1).1 = (ComputeSpecHash s2).1) :=
  ⟨rfl, by decide, by decide, rfl, rfl⟩

/-- C9 (code defect): ComputeSpecHash sorts the caller's block list slice
in place — at this input the caller's block list reads back sorted after
the call, no longer in its original element order. -/
theorem c9_spec_hash_mutates_input :
    (let s : DnsPolicySpec := ⟨[], [], ["b.com", "a.com"], [], false⟩
     (ComputeSpecHash s).2.BlockList = ["a.com", "b.com"] ∧
       (ComputeSpecHash s).2.BlockList ≠ s.BlockList) :=
  ⟨by decide, by decide⟩

/-- C5: responses of the policy endpoint handler — 405 for any method
other than GET, 400 for a GET without (or with an empty) hash parameter,
404 for a GET whose hash matches no index entry, and 200 with the indexed
snapshot serialized as JSON (plus the encoder's trailing newline) when an
entry matches. -/
theorem c5_api_status (idx : PolicyIndex) (method hashParam : String) :
    (method ≠ "GET" →
      handleGetPolicy idx method hashParam = (405, "Method not allowed\x0A")) ∧
    (method = "GET" → hashParam = "" →
      handleGetPolicy idx method hashParam =
        (400, "Missing \x27hash\x27 query parameter\x0A")) ∧
    (method = "GET" → hashParam ≠ "" → idx.Get hashParam = none →
      handleGetPolicy idx method hashParam =
        (404, "No policy found for hash: " ++ hashParam ++ "\x0A")) ∧
    (∀ p, method = "GET" → hashParam ≠ "" → idx.Get hashParam = some p →
      handleGetPolicy idx method hashParam = (200, encodeDnsPolicy p ++ "\x0A")) := by
  refine ⟨?_, ?_, ?_, ?_⟩
  · intro hm
    unfold handleGetPolicy
    rw [if_pos hm]
  · intro hm hh
    unfold handleGetPolicy
    rw [if_neg (by simp [hm]), if_pos hh]
  · intro hm hh hg
    unfold handleGetPolicy
    rw [if_neg (by simp [hm]), if_neg hh, hg]
  · intro p hm hh hg
    unfold handleGetPolicy
    rw [if_neg (by simp [hm]), if_neg hh, hg]

/-- Sample policy for the C5 witness. -/
def c5Policy : DnsPolicy :=
  ⟨"default", "p", 1, false, [dnsPolicyFinalizer],
    ⟨[("app", "frontend")], [], ["x.com"], [], false⟩, ⟨"abc", "def", 1, []⟩⟩

/-- Witness for C5: all four response classes at concrete requests. -/
theorem c5_api_status_witness :
    handleGetPolicy NewPolicyIndex "POST" "x" = (405, "Method not allowed\x0A") ∧
    handleGetPolicy NewPolicyIndex "GET" "" =
      (400, "Missing \x27hash\x27 query parameter\x0A") ∧
    handleGetPolicy NewPolicyIndex "GET" "deadbeef" =
      (404, "No policy found for hash: deadbeef\x0A") ∧
    handleGetPolicy ⟨[("abc", c5Policy)], [(⟨"default", "p"⟩, "abc")]⟩ "GET" "abc" =
      (200, encodeDnsPolicy c5Policy ++ "\x0A") :=
  ⟨(c5_api_status NewPolicyIndex "POST" "x").1 (by decide),
    (c5_api_status NewPolicyIndex "GET" "").2.1 rfl rfl,
    (c5_api_status NewPolicyIndex "GET" "deadbeef").2.2.1 rfl (by decide) rfl,
    (c5_api_status ⟨[("abc", c5Policy)], [(⟨"default", "p"⟩, "abc")]⟩ "GET" "abc").2.2.2
      c5Policy rfl (by decide) (by decide)⟩

theorem upsert_nameToHash (idx : PolicyIndex) (P : DnsPolicy) (h : String) :
    (idx.Upsert P h).nameToHash = ainsert (nnOf P) h idx.nameToHash := rfl

theorem upsert_hashToPolicy_rehash {idx : PolicyIndex} {P : DnsPolicy} {h1 h2 : String}
    (hl : alookup (nnOf P) idx.nameToHash = some h1) (hne : ¬ h1 = h2) :
    (idx.Upsert P h2).hashToPolicy = ainsert h2 P (aerase h1 idx.hashToPolicy) := by
  show ainsert h2 P
      (match alookup (nnOf P) idx.nameToHash with
        | some oldHash =>
          if oldHash ≠ h2 then aerase oldHash idx.hashToPolicy else idx.hashToPolicy
        | none => idx.hashToPolicy) =
    ainsert h2 P (aerase h1 idx.hashToPolicy)
  simp only [hl, if_pos hne]

theorem upsert_hashToPolicy_same {idx : PolicyIndex} {P : DnsPolicy} {h2 : String}
    (hl : alookup (nnOf P) idx.nameToHash = some h2) :
    (idx.Upsert P h2).hashToPolicy = ainsert h2 P idx.hashToPolicy := by
  show ainsert h2 P
      (match alookup (nnOf P) idx.nameToHash with
        | some oldHash =>
          if oldHash ≠ h2 then aerase oldHash idx.hashToPolicy else idx.hashToPolicy
        | none => idx.hashToPolicy) =
    ainsert h2 P idx.hashToPolicy
  simp only [hl]
  rw [if_neg (fun hcon : h2 ≠ h2 => hcon rfl)]

theorem upsert_hashToPolicy_fresh {idx : PolicyIndex} {P : DnsPolicy} {h2 : String}
    (hl : alookup (nnOf P) idx.nameToHash = none) :
    (idx.Upsert P h2).hashToPolicy = ainsert h2 P idx.hashToPolicy := by
  show ainsert h2 P
      (match alookup (nnOf P) idx.nameToHash with
        | some oldHash =>
          if oldHash ≠ h2 then aerase oldHash idx.hashToPolicy else idx.hashToPolicy
        | none => idx.hashToPolicy) =
    ainsert h2 P idx.hashToPolicy
  simp only [hl]

theorem delete_of_lookup {idx : PolicyIndex} {n : NamespacedName} {h : String}
    (hl : alookup n idx.nameToHash = some h) :
    idx.Delete n = ⟨aerase h idx.hashToPolicy, aerase n idx.nameToHash⟩ := by
  unfold PolicyIndex.Delete
  simp only [hl]

theorem delete_of_lookup_none {idx : PolicyIndex} {n : NamespacedName}
    (hl : alookup n idx.nameToHash = none) : idx.Delete n = idx := by
  unfold PolicyIndex.Delete
  simp only [hl]

/-- Sample policy for the C7 witness. -/
def c7Policy : DnsPolicy :=
  ⟨"default", "q", 1, false, [dnsPolicyFinalizer],
    ⟨[("app", "backend")], [], ["y.com"], [], false⟩, ⟨"", "", 0, []⟩⟩

/-- C7: after Upsert(P, h1) then Upsert(P, h2) with h1 and h2 distinct,
from any starting state, Get(h1) is absent, Get(h2) returns a copy equal
to P, and the reverse entry for P's identity points to h2. -/
theorem c7_upsert_rehash (idx : PolicyIndex) (P : DnsPolicy) (h1 h2 : String)
    (hne : h1 ≠ h2) :
    ((idx.Upsert P h1).Upsert P h2).Get h1 = none ∧
    ((idx.Upsert P h1).Upsert P h2).Get h2 = some P ∧
    alookup (nnOf P) ((idx.Upsert P h1).Upsert P h2).nameToHash = some h2 := by
  have hlook : alookup (nnOf P) (idx.Upsert P h1).nameToHash = some h1 := by
    rw [upsert_nameToHash]
    exact alookup_ainsert_self _ _ _
  have hfwd : ((idx.Upsert P h1).Upsert P h2).hashToPolicy =
      ainsert h2 P (aerase h1 (idx.Upsert P h1).hashToPolicy) :=
    upsert_hashToPolicy_rehash hlook hne
  refine ⟨?_, ?_, ?_⟩
  · show alookup h1 ((idx.Upsert P h1).Upsert P h2).hashToPolicy = none
    rw [hfwd, alookup_ainsert_of_ne _ _ _ _ hne, alookup_aerase_self]
  · show alookup h2 ((idx.Upsert P h1).Upsert P h2).hashToPolicy = some P
    rw [hfwd, alookup_ainsert_self]
  · rw [upsert_nameToHash, alookup_ainsert_self]

/-- Witness for C7 at a concrete policy, two concrete fingerprints and the
empty starting index. -/
theorem c7_upsert_rehash_witness :
    ((NewPolicyIndex.Upsert c7Policy "h1").Upsert c7Policy "h2").Get "h1" = none ∧
    ((NewPolicyIndex.Upsert c7Policy "h1").Upsert c7Policy "h2").Get "h2" =
      some c7Policy ∧
    alookup (nnOf c7Policy)
      ((NewPolicyIndex.Upsert c7Policy "h1").Upsert c7Policy "h2").nameToHash =
      some "h2" :=
  c7_upsert_rehash NewPolicyIndex c7Policy "h1" "h2" (by decide)

/-- C8 (counterexample to the claim as stated): on a list already holding
a Ready condition with status False and reason "A", a call with the same
type and status but reason "B" and message "b" leaves the list unchanged —
the code only replaces a found condition when the status changed, so no
entry carries the given reason and message. -/
theorem c8_counterexample :
    (let conds : List Condition := [⟨"Ready", "False", 0, 0, "A", "a"⟩]
     updateConditionList "Ready" "False" "B" "b" 1 1 conds = conds ∧
       ∀ c ∈ updateConditionList "Ready" "False" "B" "b" 1 1 conds,
         ¬(c.Reason = "B" ∧ c.Message = "b")) := by
  decide

theorem updateConditionList_types (ctype status reason message : String) (gen : Int)
    (now : Nat) (conds : List Condition) :
    ∀ t ∈ (updateConditionList ctype status reason message gen now conds).map
        Condition.Type',
      t ∈ conds.map Condition.Type' ∨ t = ctype := by
  induction conds with
  | nil =>
    intro t ht
    simp only [updateConditionList, List.map_cons, List.map_nil, List.mem_cons] at ht
    rcases ht with rfl | ht
    · exact Or.inr rfl
    · simp at ht
  | cons existing rest ih =>
    intro t ht
    by_cases hT : existing.Type' = ctype
    · by_cases hS : existing.Status ≠ status
      · simp only [updateConditionList, if_pos hT, if_pos hS, List.map_cons,
          List.mem_cons] at ht
        rcases ht with rfl | ht
        · exact Or.inr rfl
        · exact Or.inl (List.mem_cons_of_mem _ ht)
      · simp only [updateConditionList, if_pos hT, if_neg hS] at ht
        exact Or.inl ht
    · simp only [updateConditionList, if_neg hT, List.map_cons, List.mem_cons] at ht
      rcases ht with rfl | ht
      · exact Or.inl (List.mem_cons_self _ _)
      · rcases ih t ht with h | h
        · exact Or.inl (List.mem_cons_of_mem _ h)
        · exact Or.inr h

/-- C8 (amended): updateCondition keeps at most one condition per type and
always leaves an entry of the given type carrying the given status; that
entry carries exactly the given reason and message whenever no existing
condition of the type already had that status — when one did, the code
deliberately retains the prior reason and message. -/
theorem c8_update_condition (conds : List Condition)
    (ctype status reason message : String) (gen : Int) (now : Nat)
    (hnodup : (conds.map Condition.Type').Nodup) :
    ((updateConditionList ctype status reason message gen now conds).map
        Condition.Type').Nodup ∧
    (∃ c ∈ updateConditionList ctype status reason message gen now conds,
        c.Type' = ctype ∧ c.Status = status) ∧
    ((∀ c ∈ conds, c.Type' = ctype → c.Status ≠ status) →
      (⟨ctype, status, gen, now, reason, message⟩ : Condition) ∈
        updateConditionList ctype status reason message gen now conds) := by
  induction conds with
  | nil =>
    refine ⟨by simp [updateConditionList], ?_, ?_⟩
    · exact ⟨⟨ctype, status, gen, now, reason, message⟩,
        List.mem_singleton_self _, rfl, rfl⟩
    · intro _
      exact List.mem_singleton_self _
  | cons existing rest ih =>
    simp only [List.map_cons, List.nodup_cons] at hnodup
    obtain ⟨hhead, hrest⟩ := hnodup
    by_cases hT : existing.Type' = ctype
    · by_cases hS : existing.Status ≠ status
      · refine ⟨?_, ?_, ?_⟩
        · simp only [updateConditionList, if_pos hT, if_pos hS, List.map_cons,
            List.nodup_cons]
          exact ⟨hT ▸ hhead, hrest⟩
        · refine ⟨⟨ctype, status, gen, now, reason, message⟩, ?_, rfl, rfl⟩
          simp only [updateConditionList, if_pos hT, if_pos hS]
          exact List.mem_cons_self _ _
        · intro _
          simp only [updateConditionList, if_pos hT, if_pos hS]
          exact List.mem_cons_self _ _
      · push_neg at hS
        have hnot : ¬ existing.Status ≠ status := fun hcon => hcon hS
        refine ⟨?_, ?_, ?_⟩
        · simp only [updateConditionList, if_pos hT]
          rw [if_neg hnot]
          simp only [List.map_cons, List.nodup_cons]
          exact ⟨hhead, hrest⟩
        · refine ⟨existing, ?_, hT, hS⟩
          simp only [updateConditionList, if_pos hT]
          rw [if_neg hnot]
          exact List.mem_cons_self _ _
        · intro hprem
          exact absurd hS (hprem existing (List.mem_cons_self _ _) hT)
    · obtain ⟨ihN, ihE, ihM⟩ := ih hrest
      refine ⟨?_, ?_, ?_⟩
      · simp only [updateConditionList, if_neg hT, List.map_cons, List.nodup_cons]
        refine ⟨fun hmem => ?_, ihN⟩
        rcases updateConditionList_types ctype status reason message gen now rest
            existing.Type' hmem with h | h
        · exact hhead h
        · exact hT h
      · obtain ⟨c, hc, hcT, hcS⟩ := ihE
        refine ⟨c, ?_, hcT, hcS⟩
        simp only [updateConditionList, if_neg hT]
        exact List.mem_cons_of_mem _ hc
      · intro hprem
        simp only [updateConditionList, if_neg hT]
        exact List.mem_cons_of_mem _
          (ihM fun c hc hcT => hprem c (List.mem_cons_of_mem _ hc) hcT)

/-- Witness for C8 at a concrete conditions list: updating the Ready
condition from False/InvalidSpec to True/Reconciled keeps one entry per
type and installs the new status, reason and message. -/
theorem c8_update_condition_witness :
    ((updateConditionList "Ready" "True" "Reconciled" "ok" 1 2
        [⟨"Ready", "False", 0, 0, "InvalidSpec", "bad"⟩]).map Condition.Type').Nodup ∧
    (⟨"Ready", "True", 1, 2, "Reconciled", "ok"⟩ : Condition) ∈
      updateConditionList "Ready" "True" "Reconciled" "ok" 1 2
        [⟨"Ready", "False", 0, 0, "InvalidSpec", "bad"⟩] :=
  ⟨(c8_update_condition _ _ _ _ _ _ _ (by decide)).1,
    (c8_update_condition _ _ _ _ _ _ _ (by decide)).2.2 (by decide)⟩

set_option maxRecDepth 20000 in
/-- C1 (counterexample to the claim as stated): P1 and P2 have different
identities — same name, different namespaces — and the same selection
key, and P1 is indexed under the common fingerprint; yet P2's reconcile
invocation succeeds (no DuplicateHash failure) and mutates the index,
because the guard compares names only, never namespaces. -/
theorem c1_counterexample :
    (let spec0 : DnsPolicySpec := ⟨[("k", "v")], [], ["x.com"], [], false⟩
     let P1 : DnsPolicy :=
       ⟨"teama", "pol", 1, false, [dnsPolicyFinalizer], spec0, ⟨"", "", 0, []⟩⟩
     let P2 : DnsPolicy :=
       ⟨"teamb", "pol", 1, false, [dnsPolicyFinalizer], spec0, ⟨"", "", 0, []⟩⟩
     let h0 := ComputeSelectorHash [("k", "v")]
     let idx : PolicyIndex := ⟨[(h0, P1)], [(⟨"teama", "pol"⟩, h0)]⟩
     let r := Reconcile ⟨"teamb", "pol"⟩ (some P2) idx true true 0
     nnOf P1 ≠ nnOf P2 ∧ r.err = none ∧ r.Index.Get h0 ≠ some P1 ∧
       ROp.indexUpsert h0 ∈ r.trace) := by
  decide

/-- C1 (amended): the reconciler's duplicate-fingerprint guard compares
policy names, not full (namespace, name) identities.  When the policy P1
indexed under the fingerprint that P2's selection key computes has a
non-empty name differing from P2's name, P2's invocation (P2 existing, not
being deleted, carrying the finalizer, with a non-empty selection key)
fails with the DuplicatHash warning event and the HashComputationFailed
condition write, and the index is not mutated: Get still returns P1's
snapshot. -/
theorem c1_duplicate_name_rejected (req : NamespacedName) (idx : PolicyIndex)
    (P1 P2 : DnsPolicy) (uOk sOk : Bool) (now : Nat)
    (hdel : P2.DeletionTimestamp = false)
    (hfin : dnsPolicyFinalizer ∈ P2.Finalizers)
    (hval : ¬(P2.Spec.TargetSelector = [] ∧ P2.Spec.Subject = []))
    (hget : idx.Get (ComputeSelectorHash (if P2.Spec.TargetSelector = []
        then P2.Spec.Subject else P2.Spec.TargetSelector)) = some P1)
    (hname1 : P1.Name ≠ "") (hname2 : P1.Name ≠ P2.Name) :
    (Reconcile req (some P2) idx uOk sOk now).err = some "DUPLICATE HASH ERROR" ∧
    (Reconcile req (some P2) idx uOk sOk now).Index = idx ∧
    (Reconcile req (some P2) idx uOk sOk now).Index.Get
      (ComputeSelectorHash (if P2.Spec.TargetSelector = []
        then P2.Spec.Subject else P2.Spec.TargetSelector)) = some P1 ∧
    ROp.event "Warning" "DuplicatHash" ∈
      (Reconcile req (some P2) idx uOk sOk now).trace ∧
    ROp.condSet "Ready" "False" "HashComputationFailed" ∈
      (Reconcile req (some P2) idx uOk sOk now).trace := by
  have hb1 : (P1.Name != "") = true := bne_iff_ne.mpr hname1
  have hb2 : (P1.Name != P2.Name) = true := bne_iff_ne.mpr hname2
  have hstep : Reconcile req (some P2) idx uOk sOk now =
      reconcileActive P2 idx sOk now := by
    simp only [Reconcile, hdel, Bool.false_eq_true, if_false, if_pos hfin]
  have hactive : reconcileActive P2 idx sOk now =
      ⟨some "DUPLICATE HASH ERROR", idx, some P2,
        [ROp.event "Warning" "DuplicatHash",
         ROp.condSet "Ready" "False" "HashComputationFailed"]⟩ := by
    simp only [reconcileActive, if_neg hval, hget, hb1, hb2, Bool.and_self, if_true]
  rw [hstep, hactive]
  exact ⟨rfl, rfl, hget, by simp, by simp⟩

/-- First C1 witness policy: indexed owner of the fingerprint. -/
def c1PolicyP : DnsPolicy :=
  ⟨"default", "p", 1, false, [dnsPolicyFinalizer],
    ⟨[("k", "v")], [], [], [], false⟩, ⟨"", "", 0, []⟩⟩

/-- Second C1 witness policy: same selection key, different name. -/
def c1PolicyQ : DnsPolicy :=
  ⟨"default", "q", 1, false, [dnsPolicyFinalizer],
    ⟨[("k", "v")], [], [], [], false⟩, ⟨"", "", 0, []⟩⟩

/-- Index for the C1 witness, holding the first policy under the shared
fingerprint. -/
def c1Index : PolicyIndex :=
  ⟨[(ComputeSelectorHash [("k", "v")], c1PolicyP)],
    [(⟨"default", "p"⟩, ComputeSelectorHash [("k", "v")])]⟩

theorem c1Index_get :
    c1Index.Get (ComputeSelectorHash (if c1PolicyQ.Spec.TargetSelector = []
      then c1PolicyQ.Spec.Subject else c1PolicyQ.Spec.TargetSelector)) =
      some c1PolicyP := by
  show alookup (ComputeSelectorHash [("k", "v")])
    [(ComputeSelectorHash [("k", "v")], c1PolicyP)] = some c1PolicyP
  simp [alookup]

/-- Witness for C1 at concrete policies: two policies with the same
selection key and distinct non-empty names; the second invocation is
rejected with the duplicate-hash failure and the index keeps the first. -/
theorem c1_duplicate_name_rejected_witness :
    (Reconcile ⟨"default", "q"⟩ (some c1PolicyQ) c1Index true true 0).err =
      some "DUPLICATE HASH ERROR" ∧
    (Reconcile ⟨"default", "q"⟩ (some c1PolicyQ) c1Index true true 0).Index =
      c1Index ∧
    ROp.event "Warning" "DuplicatHash" ∈
      (Reconcile ⟨"default", "q"⟩ (some c1PolicyQ) c1Index true true 0).trace :=
  have h := c1_duplicate_name_rejected ⟨"default", "q"⟩ c1Index c1PolicyP c1PolicyQ
    true true 0 rfl (by decide) (by decide) (c1Index_get) (by decide) (by decide)
  ⟨h.1, h.2.1, h.2.2.2.1⟩

theorem reconcileActive_upsert_trace {policy0 : DnsPolicy} {idx : PolicyIndex}
    {sOk : Bool} {now : Nat} {h : String}
    (hmem : ROp.indexUpsert h ∈ (reconcileActive policy0 idx sOk now).trace) :
    ¬(policy0.Spec.TargetSelector = [] ∧ policy0.Spec.Subject = []) := by
  intro hval
  rw [reconcileActive, if_pos hval] at hmem
  simp at hmem

/-- C4: lifecycle discipline of Reconcile.  First, an index Upsert happens
only when the fetched object carries the finalizer and passed validation —
a policy never enters the index without the marker.  Second, on the
deletion path (deletion timestamp set, marker present) the index Delete
appears in the trace strictly before the persistence of the update that
clears the marker; and when that persistence fails the invocation returns
an error and the store still holds the object with the marker set, so
deletion is retried. -/
theorem c4_lifecycle (req : NamespacedName) (store : Option DnsPolicy)
    (idx : PolicyIndex) (uOk sOk : Bool) (now : Nat) :
    (∀ h, ROp.indexUpsert h ∈ (Reconcile req store idx uOk sOk now).trace →
      ∃ p, store = some p ∧ dnsPolicyFinalizer ∈ p.Finalizers ∧
        ¬(p.Spec.TargetSelector = [] ∧ p.Spec.Subject = [])) ∧
    (∀ p, store = some p → p.DeletionTimestamp = true →
      dnsPolicyFinalizer ∈ p.Finalizers →
      (Reconcile req store idx uOk sOk now).trace =
          ROp.indexDelete :: ROp.event "Normal" "Deleted" :: ROp.storeUpdate uOk ::
            (if uOk then [] else [ROp.event "Warning" "FinalizerRemovalFailed"]) ∧
        (uOk = false →
          (Reconcile req store idx uOk sOk now).err ≠ none ∧
          (Reconcile req store idx uOk sOk now).store = some p ∧
          dnsPolicyFinalizer ∈ p.Finalizers)) := by
  constructor
  · intro h hmem
    cases store with
    | none => simp [Reconcile] at hmem
    | some p0 =>
      by_cases hdel : p0.DeletionTimestamp = true
      · by_cases hfin : dnsPolicyFinalizer ∈ p0.Finalizers
        · cases uOk with
          | true => simp [Reconcile, hdel, if_pos hfin] at hmem
          | false => simp [Reconcile, hdel, if_pos hfin] at hmem
        · simp [Reconcile, hdel, if_neg hfin] at hmem
      · by_cases hfin : dnsPolicyFinalizer ∈ p0.Finalizers
        · have hmem' : ROp.indexUpsert h ∈ (reconcileActive p0 idx sOk now).trace := by
            simpa [Reconcile, hdel, if_pos hfin] using hmem
          exact ⟨p0, rfl, hfin, reconcileActive_upsert_trace hmem'⟩
        · cases uOk with
          | true => simp [Reconcile, hdel, if_neg hfin] at hmem
          | false => simp [Reconcile, hdel, if_neg hfin] at hmem
  · intro p hp hdelTS hfinp
    subst hp
    constructor
    · cases uOk with
      | true => simp [Reconcile, hdelTS, if_pos hfinp]
      | false => simp [Reconcile, hdelTS, if_pos hfinp]
    · intro huOk
      subst huOk
      refine ⟨?_, ?_, hfinp⟩
      · simp [Reconcile, hdelTS, if_pos hfinp]
      · simp [Reconcile, hdelTS, if_pos hfinp]

/-- Policy marked for deletion for the C4 witness. -/
def c4Policy : DnsPolicy :=
  ⟨"default", "d", 1, true, [dnsPolicyFinalizer],
    ⟨[("k", "v")], [], [], [], false⟩, ⟨"", "", 0, []⟩⟩

/-- Witness for C4: on a concrete deletion-path invocation whose finalizer
removal fails to persist, the trace deletes from the index before the
store update, the invocation errors and the store keeps the marker. -/
theorem c4_lifecycle_witness :
    (Reconcile ⟨"default", "d"⟩ (some c4Policy) NewPolicyIndex false true 0).trace =
      [ROp.indexDelete, ROp.event "Normal" "Deleted", ROp.storeUpdate false,
        ROp.event "Warning" "FinalizerRemovalFailed"] ∧
    (Reconcile ⟨"default", "d"⟩ (some c4Policy) NewPolicyIndex false true 0).err ≠
      none ∧
    (Reconcile ⟨"default", "d"⟩ (some c4Policy) NewPolicyIndex false true 0).store =
      some c4Policy :=
  have h := (c4_lifecycle ⟨"default", "d"⟩ (some c4Policy) NewPolicyIndex
    false true 0).2 c4Policy rfl rfl (by decide)
  ⟨by simpa using h.1, (h.2 rfl).1, (h.2 rfl).2.1⟩

theorem mem_akeys_ainsert {α β : Type} [DecidableEq α] {a k : α} {v : β}
    {l : List (α × β)} :
    a ∈ akeys (ainsert k v l) ↔ a = k ∨ (a ∈ akeys l ∧ a ≠ k) := by
  constructor
  · intro h
    simp only [ainsert, akeys, List.map_cons, List.mem_cons] at h
    rcases h with h | h
    · exact Or.inl h
    · exact Or.inr (mem_akeys_aerase.mp h)
  · intro h
    simp only [ainsert, akeys, List.map_cons, List.mem_cons]
    rcases h with h | h
    · exact Or.inl h
    · exact Or.inr (mem_akeys_aerase.mpr h)

theorem mem_akeys_ainsert_self {α β : Type} [DecidableEq α] (k : α) (v : β)
    (l : List (α × β)) : k ∈ akeys (ainsert k v l) :=
  mem_akeys_ainsert.mpr (Or.inl rfl)

theorem mem_akeys_ainsert_of_mem {α β : Type} [DecidableEq α] {a k : α} {v : β}
    {l : List (α × β)} (h : a ∈ akeys l) : a ∈ akeys (ainsert k v l) := by
  by_cases hak : a = k
  · exact mem_akeys_ainsert.mpr (Or.inl hak)
  · exact mem_akeys_ainsert.mpr (Or.inr ⟨h, hak⟩)

theorem entry_eq_of_nodup_akeys {α β : Type} [DecidableEq α] {l : List (α × β)}
    (nd : (akeys l).Nodup) {q1 q2 : α × β} (h1 : q1 ∈ l) (h2 : q2 ∈ l)
    (hk : q1.1 = q2.1) : q1 = q2 := by
  have e1 : alookup q1.1 l = some q1.2 := alookup_eq_some_of_mem nd h1
  have e2 : alookup q2.1 l = some q2.2 := alookup_eq_some_of_mem nd h2
  rw [hk, e2] at e1
  exact Prod.ext hk (Option.some.inj e1).symm

theorem filter_length_one {γ : Type} {l : List γ} {p : γ → Bool} {a : γ}
    (nd : l.Nodup) (ha : a ∈ l) (hpa : p a = true)
    (uniq : ∀ b ∈ l, p b = true → b = a) : (l.filter p).length = 1 := by
  induction l with
  | nil => simp at ha
  | cons c rest ih =>
    rw [List.nodup_cons] at nd
    by_cases pc : p c = true
    · have hca : c = a := uniq c (List.mem_cons_self _ _) pc
      subst hca
      have hrest : rest.filter p = [] := by
        rw [List.filter_eq_nil_iff]
        intro b hb hpb
        exact nd.1 ((uniq b (List.mem_cons_of_mem _ hb) (by simpa using hpb)) ▸ hb)
      simp [List.filter_cons, pc, hrest]
    · have har : a ∈ rest := by
        rcases List.mem_cons.mp ha with rfl | h
        · exact absurd hpa pc
        · exact h
      have : (rest.filter p).length = 1 :=
        ih nd.2 har fun b hb hpb => uniq b (List.mem_cons_of_mem _ hb) hpb
      simpa [List.filter_cons, pc] using this

/-- Invariant tying the two maps of the index together: both key lists are
duplicate free, at most one identity holds any fingerprint, every reverse
fingerprint is a forward key, and every forward key is held by some
reverse entry. -/
structure IndexInv (idx : PolicyIndex) : Prop where
  nodupF : (akeys idx.hashToPolicy).Nodup
  nodupR : (akeys idx.nameToHash).Nodup
  valInj : ∀ q1 ∈ idx.nameToHash, ∀ q2 ∈ idx.nameToHash, q1.2 = q2.2 → q1.1 = q2.1
  rToF : ∀ q ∈ idx.nameToHash, q.2 ∈ akeys idx.hashToPolicy
  fToR : ∀ h ∈ akeys idx.hashToPolicy, ∃ n, (n, h) ∈ idx.nameToHash

theorem indexInv_empty : IndexInv NewPolicyIndex := by
  refine ⟨List.nodup_nil, List.nodup_nil, ?_, ?_, ?_⟩ <;> intro q hq <;>
    simp [NewPolicyIndex, akeys] at hq

theorem indexInv_delete {idx : PolicyIndex} (inv : IndexInv idx)
    (n : NamespacedName) : IndexInv (idx.Delete n) := by
  cases hl : alookup n idx.nameToHash with
  | none =>
    rw [delete_of_lookup_none hl]
    exact inv
  | some h0 =>
    rw [delete_of_lookup hl]
    have hmem0 : (n, h0) ∈ idx.nameToHash := mem_of_alookup_eq_some hl
    refine ⟨nodup_akeys_aerase _ inv.nodupF, nodup_akeys_aerase _ inv.nodupR,
      ?_, ?_, ?_⟩
    · intro q1 hq1 q2 hq2 hv
      exact inv.valInj q1 (mem_aerase.mp hq1).1 q2 (mem_aerase.mp hq2).1 hv
    · intro q hq
      obtain ⟨hqmem, hqne⟩ := mem_aerase.mp hq
      have hq2ne : q.2 ≠ h0 := by
        intro he
        exact hqne (inv.valInj q hqmem (n, h0) hmem0 he)
      exact mem_akeys_aerase.mpr ⟨inv.rToF q hqmem, hq2ne⟩
    · intro h hm
      obtain ⟨hmemk, hneh⟩ := mem_akeys_aerase.mp hm
      obtain ⟨m, hmmem⟩ := inv.fToR h hmemk
      have hmn : m ≠ n := by
        intro he
        subst he
        have := alookup_eq_some_of_mem inv.nodupR hmmem
        rw [hl] at this
        cases this
        exact hneh rfl
      exact ⟨m, mem_aerase.mpr ⟨hmmem, hmn⟩⟩

theorem indexInv_upsert {idx : PolicyIndex} (inv : IndexInv idx) (P : DnsPolicy)
    (h : String)
    (guard : ∀ q ∈ idx.nameToHash, q.2 = h → q.1 = nnOf P) :
    IndexInv (idx.Upsert P h) := by
  have hr : (idx.Upsert P h).nameToHash = ainsert (nnOf P) h idx.nameToHash :=
    upsert_nameToHash idx P h
  have hvalInj : ∀ q1 ∈ (idx.Upsert P h).nameToHash,
      ∀ q2 ∈ (idx.Upsert P h).nameToHash, q1.2 = q2.2 → q1.1 = q2.1 := by
    rw [hr]
    intro q1 hq1 q2 hq2 hv
    rcases mem_ainsert.mp hq1 with rfl | ⟨hq1m, hq1ne⟩ <;>
      rcases mem_ainsert.mp hq2 with rfl | ⟨hq2m, hq2ne⟩
    · rfl
    · exact (guard q2 hq2m hv.symm).symm
    · exact guard q1 hq1m hv
    · exact inv.valInj q1 hq1m q2 hq2m hv
  cases hl : alookup (nnOf P) idx.nameToHash with
  | none =>
    have hf : (idx.Upsert P h).hashToPolicy = ainsert h P idx.hashToPolicy :=
      upsert_hashToPolicy_fresh hl
    refine ⟨?_, ?_, hvalInj, ?_, ?_⟩
    · rw [hf]
      exact nodup_akeys_ainsert _ _ inv.nodupF
    · rw [hr]
      exact nodup_akeys_ainsert _ _ inv.nodupR
    · rw [hr, hf]
      intro q hq
      rcases mem_ainsert.mp hq with rfl | ⟨hqm, hqne⟩
      · exact mem_akeys_ainsert_self _ _ _
      · exact mem_akeys_ainsert_of_mem (inv.rToF q hqm)
    · rw [hf, hr]
      intro h' hm
      rcases mem_akeys_ainsert.mp hm with rfl | ⟨hmem, hne⟩
      · exact ⟨nnOf P, mem_ainsert.mpr (Or.inl rfl)⟩
      · obtain ⟨m, hmm⟩ := inv.fToR h' hmem
        have hmne : m ≠ nnOf P := by
          intro he
          subst he
          have hcon := alookup_eq_some_of_mem inv.nodupR hmm
          rw [hl] at hcon
          cases hcon
        exact ⟨m, mem_ainsert.mpr (Or.inr ⟨hmm, hmne⟩)⟩
  | some oldH =>
    have hmem0 : (nnOf P, oldH) ∈ idx.nameToHash := mem_of_alookup_eq_some hl
    by_cases hOld : oldH = h
    · subst hOld
      have hf : (idx.Upsert P oldH).hashToPolicy = ainsert oldH P idx.hashToPolicy :=
        upsert_hashToPolicy_same hl
      refine ⟨?_, ?_, hvalInj, ?_, ?_⟩
      · rw [hf]
        exact nodup_akeys_ainsert _ _ inv.nodupF
      · rw [hr]
        exact nodup_akeys_ainsert _ _ inv.nodupR
      · rw [hr, hf]
        intro q hq
        rcases mem_ainsert.mp hq with rfl | ⟨hqm, hqne⟩
        · exact mem_akeys_ainsert_self _ _ _
        · exact mem_akeys_ainsert_of_mem (inv.rToF q hqm)
      · rw [hf, hr]
        intro h' hm
        rcases mem_akeys_ainsert.mp hm with rfl | ⟨hmem, hne⟩
        · exact ⟨nnOf P, mem_ainsert.mpr (Or.inl rfl)⟩
        · obtain ⟨m, hmm⟩ := inv.fToR h' hmem
          have hmne : m ≠ nnOf P := by
            intro he
            subst he
            have hcon := alookup_eq_some_of_mem inv.nodupR hmm
            rw [hl] at hcon
            exact hne (Option.some.inj hcon).symm
          exact ⟨m, mem_ainsert.mpr (Or.inr ⟨hmm, hmne⟩)⟩
    · have hf : (idx.Upsert P h).hashToPolicy =
          ainsert h P (aerase oldH idx.hashToPolicy) :=
        upsert_hashToPolicy_rehash hl hOld
      have hfresh : h ∉ akeys idx.hashToPolicy := by
        intro hmem
        obtain ⟨m, hm⟩ := inv.fToR h hmem
        have hmP : m = nnOf P := guard (m, h) hm rfl
        subst hmP
        have hcon := alookup_eq_some_of_mem inv.nodupR hm
        rw [hl] at hcon
        exact hOld (Option.some.inj hcon)
      refine ⟨?_, ?_, hvalInj, ?_, ?_⟩
      · rw [hf]
        exact nodup_akeys_ainsert _ _ (nodup_akeys_aerase _ inv.nodupF)
      · rw [hr]
        exact nodup_akeys_ainsert _ _ inv.nodupR
      · rw [hr, hf]
        intro q hq
        rcases mem_ainsert.mp hq with rfl | ⟨hqm, hqne⟩
        · exact mem_akeys_ainsert_self _ _ _
        · by_cases hq2h : q.2 = h
          · exact hq2h ▸ mem_akeys_ainsert_self _ _ _
          · have hq2old : q.2 ≠ oldH := by
              intro he
              exact hqne (inv.valInj q hqm (nnOf P, oldH) hmem0 he)
            exact mem_akeys_ainsert.mpr
              (Or.inr ⟨mem_akeys_aerase.mpr ⟨inv.rToF q hqm, hq2old⟩, hq2h⟩)
      · rw [hf, hr]
        intro h' hm
        rcases mem_akeys_ainsert.mp hm with rfl | ⟨hmem, hne⟩
        · exact ⟨nnOf P, mem_ainsert.mpr (Or.inl rfl)⟩
        · obtain ⟨hmemf, hneold⟩ := mem_akeys_aerase.mp hmem
          obtain ⟨m, hmm⟩ := inv.fToR h' hmemf
          have hmne : m ≠ nnOf P := by
            intro he
            subst he
            have hcon := alookup_eq_some_of_mem inv.nodupR hmm
            rw [hl] at hcon
            exact hneold (Option.some.inj hcon).symm
          exact ⟨m, mem_ainsert.mpr (Or.inr ⟨hmm, hmne⟩)⟩

theorem size_eq_of_inv {idx : PolicyIndex} (inv : IndexInv idx) :
    idx.hashToPolicy.length = idx.nameToHash.length := by
  have hvnd : (idx.nameToHash.map (fun q => q.2)).Nodup := by
    refine List.Nodup.map_on ?_ (inv.nodupR.of_map _)
    intro q1 hq1 q2 hq2 hv
    exact entry_eq_of_nodup_akeys inv.nodupR hq1 hq2 (inv.valInj q1 hq1 q2 hq2 hv)
  have hperm : (akeys idx.hashToPolicy).Perm (idx.nameToHash.map (fun q => q.2)) := by
    rw [List.perm_ext_iff_of_nodup inv.nodupF hvnd]
    intro h
    constructor
    · intro hm
      obtain ⟨m, hmm⟩ := inv.fToR h hm
      exact List.mem_map.mpr ⟨(m, h), hmm, rfl⟩
    · intro hm
      obtain ⟨q, hq, hqe⟩ := List.mem_map.mp hm
      exact hqe ▸ inv.rToF q hq
  have hlen := hperm.length_eq
  simpa [akeys] using hlen

theorem inv_applyOps {idx : PolicyIndex} (inv : IndexInv idx) {ops : List IndexOp}
    (hadm : admissible idx ops = true) : IndexInv (applyOps idx ops) := by
  induction ops generalizing idx with
  | nil => exact inv
  | cons op rest ih =>
    cases op with
    | upsert p h =>
      rw [show admissible idx (IndexOp.upsert p h :: rest) =
          (idx.nameToHash.all (fun q => q.2 != h || q.1 == nnOf p) &&
            admissible (applyOp idx (IndexOp.upsert p h)) rest) from rfl,
        Bool.and_eq_true] at hadm
      obtain ⟨hguard, hrest⟩ := hadm
      refine ih ?_ hrest
      refine indexInv_upsert inv p h ?_
      intro q hq hq2
      have hqb := List.all_eq_true.mp hguard q hq
      rcases Bool.or_eq_true_iff.mp hqb with hb | hb
      · exact absurd hq2 (bne_iff_ne.mp hb)
      · exact eq_of_beq hb
    | del n =>
      rw [show admissible idx (IndexOp.del n :: rest) =
          (true && admissible (applyOp idx (IndexOp.del n)) rest) from rfl,
        Bool.and_eq_true] at hadm
      exact ih (indexInv_delete inv n) hadm.2

/-- C2 (counterexample to the claim as stated): upserting two policies
with distinct identities under the same fingerprint — a sequence the index
API permits — leaves two identities holding the fingerprint in the reverse
map while the forward map holds one entry: Size is 1 although two distinct
identities currently hold a fingerprint mapping, so the claimed mutual
consistency fails for this Upsert/Delete sequence from the empty index. -/
theorem c2_counterexample :
    (let P1 : DnsPolicy :=
       ⟨"default", "p1", 1, false, [], ⟨[("k", "v")], [], [], [], false⟩, ⟨"", "", 0, []⟩⟩
     let P2 : DnsPolicy :=
       ⟨"default", "p2", 1, false, [], ⟨[("k", "v")], [], [], [], false⟩, ⟨"", "", 0, []⟩⟩
     let idx := applyOps NewPolicyIndex [IndexOp.upsert P1 "h", IndexOp.upsert P2 "h"]
     alookup (⟨"default", "p1"⟩ : NamespacedName) idx.nameToHash = some "h" ∧
       alookup (⟨"default", "p2"⟩ : NamespacedName) idx.nameToHash = some "h" ∧
       (⟨"default", "p1"⟩ : NamespacedName) ≠ ⟨"default", "p2"⟩ ∧
       idx.Size = 1 ∧ (akeys idx.nameToHash).length = 2) := by
  decide

/-- C2 (amended): starting from the empty index, any sequence of Upsert
and Delete operations that is admissible — no Upsert assigns a fingerprint
currently held by a different identity, the discipline the reconciler's
duplicate check is meant to enforce — keeps the two maps mutually
consistent: every forward fingerprint is held by exactly one identity in
the reverse map, every held fingerprint is a forward key, and Size equals
the number of distinct identities currently holding a fingerprint
mapping. -/
theorem c2_index_consistent (ops : List IndexOp)
    (hadm : admissible NewPolicyIndex ops = true) :
    (∀ h ∈ akeys (applyOps NewPolicyIndex ops).hashToPolicy,
      ∃! n, alookup n (applyOps NewPolicyIndex ops).nameToHash = some h) ∧
    (∀ q ∈ (applyOps NewPolicyIndex ops).nameToHash,
      q.2 ∈ akeys (applyOps NewPolicyIndex ops).hashToPolicy) ∧
    (akeys (applyOps NewPolicyIndex ops).nameToHash).Nodup ∧
    (applyOps NewPolicyIndex ops).Size =
      (akeys (applyOps NewPolicyIndex ops).nameToHash).length := by
  have inv : IndexInv (applyOps NewPolicyIndex ops) := inv_applyOps indexInv_empty hadm
  refine ⟨?_, inv.rToF, inv.nodupR, ?_⟩
  · intro h hm
    obtain ⟨m, hmm⟩ := inv.fToR h hm
    refine ⟨m, alookup_eq_some_of_mem inv.nodupR hmm, ?_⟩
    intro n hn
    exact inv.valInj (n, h) (mem_of_alookup_eq_some hn) (m, h) hmm rfl
  · show (applyOps NewPolicyIndex ops).hashToPolicy.length = _
    rw [size_eq_of_inv inv]
    simp [akeys]

/-- Operation sequence for the C2 witness: two indexings under distinct
fingerprints, one deletion, one re-indexing of the freed identity. -/
def c2WitnessOps : List IndexOp :=
  [IndexOp.upsert ⟨"default", "w1", 1, false, [],
      ⟨[("a", "1")], [], [], [], false⟩, ⟨"", "", 0, []⟩⟩ "h1",
   IndexOp.upsert ⟨"default", "w2", 1, false, [],
      ⟨[("a", "2")], [], [], [], false⟩, ⟨"", "", 0, []⟩⟩ "h2",
   IndexOp.del ⟨"default", "w1"⟩,
   IndexOp.upsert ⟨"default", "w1", 2, false, [],
      ⟨[("a", "3")], [], [], [], false⟩, ⟨"", "", 0, []⟩⟩ "h3"]

/-- Witness for C2: the sample sequence is admissible and leaves the index
with duplicate-free identities whose count equals Size. -/
theorem c2_index_consistent_witness :
    admissible NewPolicyIndex c2WitnessOps = true ∧
    (akeys (applyOps NewPolicyIndex c2WitnessOps).nameToHash).Nodup ∧
    (applyOps NewPolicyIndex c2WitnessOps).Size =
      (akeys (applyOps NewPolicyIndex c2WitnessOps).nameToHash).length :=
  have h := c2_index_consistent c2WitnessOps (by decide)
  ⟨by decide, h.2.2.1, h.2.2.2⟩

end DnsMesh
